import Mathlib

/-!
Verification of the balance-overlay (`cosmos/x/evm/plugins/state/bank/manager.go`)
and the admission pool (`EthTxPool` in the mempool package) of this repository.

The snapshot stack `Manager.states` (a `lib/ds/stack`, whose source is not
included here) is modelled from the spec: a stack of frames, bottom (index 0)
to top; `Push` appends and returns the new size, `Peek` returns the top,
`PeekAt i` returns the frame at index `i` from the bottom, and
`PopToSize n` truncates the stack back to height `n` (spec §4.1:
"RevertToSnapshot(id) → truncates the stack back to height id").
-/

/-- Account addresses (`common.Address`), abstracted as naturals. -/
abbrev Addr := Nat

/-- Transaction hashes (`common.Hash`), abstracted as naturals; the Go zero
value `common.Hash\x7b\x7d` is `0`. -/
abbrev Hash := Nat

/-- One recorded balance delta (`balanceChange` in `manager.go`). -/
structure BalanceChange where
  addr : Addr
  delta : Int
deriving DecidableEq

/-- One frame of the snapshot stack (the `state` struct in `manager.go`): the
append-only delta log and the dirty-balance cache; a `nil` map entry is
modelled as `none`. -/
structure Frame where
  balanceChanges : List BalanceChange
  dirtyBalances : Addr → Option Int

/-- The fresh frame `getCurState` pushes on an empty stack. -/
def emptyFrame : Frame := ⟨[], fun _ => none⟩

/-- The snapshot stack `Manager.states`, index 0 = bottom, last = top. -/
abbrev BankStack := List Frame

/-- The side effect of `getCurState`: lazily create one empty frame when the
stack is empty. -/
def ensure (ms : BankStack) : BankStack :=
  match ms with
  | [] => [emptyFrame]
  | _ => ms

/-- The top frame (`states.Peek()`); the default is irrelevant because every
use is guarded by `ensure`. -/
def topFrame (ms : BankStack) : Frame := ms.getLastD emptyFrame

/-- The balance a frame answers for `a`: the dirty entry when present (the Go
`balance != nil` test), otherwise the external ledger balance `bk a`. -/
def frameBalance (bk : Addr → Int) (t : Frame) (a : Addr) : Int :=
  match t.dirtyBalances a with
  | some b => b
  | none => bk a

/-- The value returned by `Manager.GetBalance`: the dirty balance when present
in the current frame, otherwise the external ledger balance `bk`. -/
def getBalanceVal (bk : Addr → Int) (ms : BankStack) (a : Addr) : Int :=
  frameBalance bk (topFrame (ensure ms)) a

/-- The state effect of `Manager.GetBalance` (`getCurState` may lazily create
a frame). -/
def getBalanceSt (ms : BankStack) : BankStack := ensure ms

/-- Replace the top frame of a (non-empty) stack. -/
def setTop (ms : BankStack) (f : Frame) : BankStack := ms.dropLast ++ [f]

/-- `Manager.SetBalance`: record `newBalance - GetBalance(addr)` as a delta in
the current frame — skipping zero deltas — and update the dirty cache. -/
def setBalance (bk : Addr → Int) (ms : BankStack) (a : Addr) (v : Int) : BankStack :=
  let old := getBalanceVal bk ms a
  let ms₁ := ensure ms
  let d := v - old
  if d = 0 then ms₁
  else
    let t := topFrame ms₁
    setTop ms₁ ⟨t.balanceChanges ++ [⟨a, d⟩],
      fun x => if x = a then some v else t.dirtyBalances x⟩

/-- `Manager.Snapshot`: push a frame holding an empty delta log and a copy of
the current frame's dirty map; the returned id is `states.Push(..) - 1`, the
stack height before the push. -/
def snapshotOp (ms : BankStack) : BankStack × Nat :=
  let ms₁ := ensure ms
  let ms₂ := ms₁ ++ [⟨[], (topFrame ms₁).dirtyBalances⟩]
  (ms₂, ms₂.length - 1)

/-- `Manager.RevertToSnapshot`: `states.PopToSize(id)`, truncating the stack
back to height `id`. -/
def revertToSnapshot (ms : BankStack) (id : Nat) : BankStack := ms.take id

/-- `Manager.Finalize`: the body is empty, a no-op. -/
def Finalize (ms : BankStack) : BankStack := ms

/-- One overlay operation, for quantifying over call sequences. -/
inductive OverlayOp where
  | getB (a : Addr)
  | setB (a : Addr) (v : Int)
  | snap
  | revert (id : Nat)

def OverlayOp.isRevert : OverlayOp → Bool
  | .revert _ => true
  | _ => false

/-- The state effect of one overlay operation. -/
def execOp (bk : Addr → Int) (ms : BankStack) : OverlayOp → BankStack
  | .getB _ => getBalanceSt ms
  | .setB a v => setBalance bk ms a v
  | .snap => (snapshotOp ms).1
  | .revert id => revertToSnapshot ms id

/-- The state effect of a sequence of overlay operations. -/
def execOps (bk : Addr → Int) (ms : BankStack) (ops : List OverlayOp) : BankStack :=
  ops.foldl (execOp bk) ms

/-- A call `Manager.Commit` makes into the external bank keeper. -/
inductive LedgerOp where
  | mintCoins (amt : Int)
  | sendModuleToAccount (a : Addr) (amt : Int)
  | sendAccountToModule (a : Addr) (amt : Int)
  | burnCoins (amt : Int)

/-- The keeper calls `Commit` makes for one recorded delta: mint then transfer
for a credit, transfer then burn of the absolute amount for a debit, nothing
for a zero delta (the `default:` switch case). -/
def opsOfChange (c : BalanceChange) : List LedgerOp :=
  if c.delta > 0 then [.mintCoins c.delta, .sendModuleToAccount c.addr c.delta]
  else if c.delta < 0 then [.sendAccountToModule c.addr (-c.delta), .burnCoins (-c.delta)]
  else []

/-- The keeper calls for one frame's delta log, in append order. -/
def changesTrace : List BalanceChange → List LedgerOp
  | [] => []
  | c :: cs => opsOfChange c ++ changesTrace cs

/-- The keeper calls for the whole stack, frames bottom-to-top. -/
def commitTrace : List Frame → List LedgerOp
  | [] => []
  | f :: fs => changesTrace f.balanceChanges ++ commitTrace fs

/-- Run a list of keeper calls against an abstract keeper `K` (each call
returns an optional error and the mutated context), stopping at the first
error. -/
def runOps {σ : Type} (K : LedgerOp → σ → Option String × σ) :
    List LedgerOp → σ → Option String × σ
  | [], s => (none, s)
  | op :: ops, s =>
    match K op s with
    | (some e, s₁) => (some e, s₁)
    | (none, s₁) => runOps K ops s₁

/-- The body of `Commit`'s switch for one `balanceChange`: positive delta
mints then transfers to the account, negative delta transfers from the account
then burns; each keeper error returns immediately. -/
def runChange {σ : Type} (K : LedgerOp → σ → Option String × σ)
    (c : BalanceChange) (s : σ) : Option String × σ :=
  if c.delta > 0 then
    match K (.mintCoins c.delta) s with
    | (some e, s₁) => (some e, s₁)
    | (none, s₁) => K (.sendModuleToAccount c.addr c.delta) s₁
  else if c.delta < 0 then
    match K (.sendAccountToModule c.addr (-c.delta)) s with
    | (some e, s₁) => (some e, s₁)
    | (none, s₁) => K (.burnCoins (-c.delta)) s₁
  else (none, s)

/-- `Commit`'s inner loop over one frame's `balanceChanges`. -/
def runChanges {σ : Type} (K : LedgerOp → σ → Option String × σ) :
    List BalanceChange → σ → Option String × σ
  | [], s => (none, s)
  | c :: cs, s =>
    match runChange K c s with
    | (some e, s₁) => (some e, s₁)
    | (none, s₁) => runChanges K cs s₁

/-- `Commit`'s outer loop over the frames, bottom (`PeekAt 0`) to top. -/
def runFrames {σ : Type} (K : LedgerOp → σ → Option String × σ) :
    List Frame → σ → Option String × σ
  | [], s => (none, s)
  | f :: fs, s =>
    match runChanges K f.balanceChanges s with
    | (some e, s₁) => (some e, s₁)
    | (none, s₁) => runFrames K fs s₁

/-- `Manager.Commit`: the call to `getCurState` lazily creates a frame on an
empty stack, then the frames are replayed bottom-to-top against the keeper;
the result is the (error, keeper context) pair and the stack after the call. -/
def Commit {σ : Type} (K : LedgerOp → σ → Option String × σ)
    (ms : BankStack) (s : σ) : (Option String × σ) × BankStack :=
  (runFrames K (ensure ms) s, ensure ms)

/-- The external ledger's observable state: per-account balances and the
module account's balance. -/
structure Ledger where
  accounts : Addr → Int
  moduleBal : Int

/-- Add `d` to account `b`. -/
def updAcc (f : Addr → Int) (b : Addr) (d : Int) : Addr → Int :=
  fun x => if x = b then f x + d else f x

/-- Modelled from the spec: the external bank keeper (an out-of-scope
collaborator, §6) — mint credits the module account, burn and the two
transfers fail on insufficient funds, transfers move the amount between the
module account and the target account. -/
def bankApply : LedgerOp → Ledger → Option String × Ledger
  | .mintCoins amt, l => (none, ⟨l.accounts, l.moduleBal + amt⟩)
  | .sendModuleToAccount a amt, l =>
    if amt ≤ l.moduleBal then (none, ⟨updAcc l.accounts a amt, l.moduleBal - amt⟩)
    else (some "insufficient funds", l)
  | .sendAccountToModule a amt, l =>
    if amt ≤ l.accounts a then (none, ⟨updAcc l.accounts a (-amt), l.moduleBal + amt⟩)
    else (some "insufficient funds", l)
  | .burnCoins amt, l =>
    if amt ≤ l.moduleBal then (none, ⟨l.accounts, l.moduleBal - amt⟩)
    else (some "insufficient funds", l)

/-- The net effect of a list of keeper calls on one account's ledger balance
(only the two transfers touch external accounts). -/
def opsNet (a : Addr) : List LedgerOp → Int
  | [] => 0
  | .sendModuleToAccount b amt :: rest => (if b = a then amt else 0) + opsNet a rest
  | .sendAccountToModule b amt :: rest => (if b = a then -amt else 0) + opsNet a rest
  | .mintCoins _ :: rest => opsNet a rest
  | .burnCoins _ :: rest => opsNet a rest

/-- Sum of the recorded deltas for account `a` in one delta log. -/
def changesSum (a : Addr) : List BalanceChange → Int
  | [] => 0
  | c :: cs => (if c.addr = a then c.delta else 0) + changesSum a cs

/-- Sum of the recorded deltas for account `a` across a list of frames. -/
def frameDeltaSum (a : Addr) : List Frame → Int
  | [] => 0
  | f :: fs => changesSum a f.balanceChanges + frameDeltaSum a fs

/-- The overlay invariant (spec §3), strengthened with the fact that an
account absent from a frame's dirty map has no recorded deltas at or below
that frame: for every frame `i` and account `a`, a dirty entry equals the
external balance plus the deltas recorded in frames `0..i`, and a missing
entry means those deltas sum to zero. -/
def BankInv (bk : Addr → Int) (ms : BankStack) : Prop :=
  ∀ i (f : Frame), ms[i]? = some f → ∀ a : Addr,
    (∀ b, f.dirtyBalances a = some b →
      b = bk a + frameDeltaSum a (ms.take (i + 1))) ∧
    (f.dirtyBalances a = none →
      frameDeltaSum a (ms.take (i + 1)) = 0)

/-- `core.ReservedAddress` (`eth/core/constants.go`). -/
def ReservedAddress : Addr := 0xfF06ad5d076fa274B49C297f3fE9e29B5bA9AaDC

/-- An execution-engine (Ethereum) transaction as seen by the pool: its
sender (`coretypes.GetSender`), nonce and hash. -/
structure EthTx where
  sender : Addr
  nonce : Nat
  hash : Hash
deriving DecidableEq

/-- A host (sdk) transaction as seen by the pool: whether the type assertion
to `SigVerifiableTx` succeeds, the result of `GetSigners` (already resolved to
addresses, `none` when `GetSigners` errors), and the result of
`evmtypes.GetAsEthTx` (`none` when the transaction is not an execution-engine
transaction). -/
structure SdkTx where
  sigVerifiable : Bool
  signers : Option (List Addr)
  asEthTx : Option EthTx
deriving DecidableEq

/-- `checkTxSigner` in the mempool package: reject non-sig-verifiable
transactions, failed signer extraction, and any signer equal to the reserved
system account. -/
def checkTxSigner (tx : SdkTx) : Option String :=
  if !tx.sigVerifiable then some "invalid transaction type"
  else
    match tx.signers with
    | none => some "failed to get signers"
    | some ss =>
      if ss.any (fun s => s == ReservedAddress) then
        some "reserved account not allowed to send tx via mempool"
      else none

/-- Modelled from the spec: `errorslib.Wrap` (`lib/errors`, source not
included) wraps an optional underlying error with a message, always yielding
a non-nil error — per spec §4.2 a stale transaction is removed and signalled
`RejectedNonceTooLow` unconditionally. -/
def errWrap (e : Option String) (msg : String) : String :=
  match e with
  | some e₀ => msg ++ ": " ++ e₀
  | none => msg

/-- Environment of the pool: the authoritative nonce source `nr.GetNonce` and
the underlying priority pool's admission rule. -/
structure PoolEnv where
  nrGetNonce : Addr → Nat
  baseAccepts : List SdkTx → SdkTx → Bool

/-- Modelled from the spec: the underlying priority pool (`PriorityNonceMempool`,
an out-of-scope collaborator, §6) — `Insert` either rejects (leaving the pool
unchanged) or appends the transaction. -/
def baseInsert (env : PoolEnv) (b : List SdkTx) (tx : SdkTx) :
    Option String × List SdkTx :=
  if env.baseAccepts b tx then (none, b ++ [tx])
  else (some "rejected by underlying pool", b)

/-- Modelled from the spec: the underlying priority pool's `Remove` — it
fails (tx not found) iff the transaction is absent, otherwise it removes the
transaction. -/
def baseRemove (b : List SdkTx) (tx : SdkTx) : Option String × List SdkTx :=
  if tx ∈ b then (none, b.erase tx)
  else (some "tx not found in mempool", b)

/-- The admission pool: the underlying priority pool, the Nonce Index
(`nonceToHash`, an account's inner map is `none` when the Go map is `nil`)
and the Tx Cache (`ethTxCache`). -/
structure EthTxPool where
  base : List SdkTx
  nonceToHash : Addr → Option (Nat → Option Hash)
  ethTxCache : Hash → Option EthTx

/-- `EthTxPool.Insert`: check the signer, delegate to the underlying pool,
then for execution-engine transactions enforce the nonce floor (removing the
stale transaction from the underlying pool and returning a wrapped error) and
maintain the Nonce Index and Tx Cache. A missing inner-map entry reads as the
zero hash (Go zero value), exactly as `senderNonceHash[nonce]` does. -/
def EthTxPool.insert (env : PoolEnv) (p : EthTxPool) (tx : SdkTx) :
    Option String × EthTxPool :=
  match checkTxSigner tx with
  | some e => (some e, p)
  | none =>
    match baseInsert env p.base tx with
    | (some e, b₁) => (some e, { p with base := b₁ })
    | (none, b₁) =>
      match tx.asEthTx with
      | none => (none, { p with base := b₁ })
      | some ethTx =>
        if ethTx.nonce < env.nrGetNonce ethTx.sender then
          let rb := baseRemove b₁ tx
          (some (errWrap rb.1 "nonce too low"), { p with base := rb.2 })
        else
          let cache₁ :=
            match p.nonceToHash ethTx.sender with
            | some m => fun h => if h = (m ethTx.nonce).getD 0 then none else p.ethTxCache h
            | none => p.ethTxCache
          let inner := (p.nonceToHash ethTx.sender).getD (fun _ => none)
          let inner₁ := fun n => if n = ethTx.nonce then some ethTx.hash else inner n
          (none,
            { base := b₁
              nonceToHash := fun a => if a = ethTx.sender then some inner₁ else p.nonceToHash a
              ethTxCache := fun h => if h = ethTx.hash then some ethTx else cache₁ h })

/-- `EthTxPool.Remove`: delegate to the underlying pool first, propagating its
error; on success delete the Tx Cache entry for the transaction's hash and the
Nonce Index entry for (sender, nonce) — a `delete` on a `nil` inner map is a
no-op. -/
def EthTxPool.remove (p : EthTxPool) (tx : SdkTx) : Option String × EthTxPool :=
  match baseRemove p.base tx with
  | (some e, b₁) => (some e, { p with base := b₁ })
  | (none, b₁) =>
    match tx.asEthTx with
    | none => (none, { p with base := b₁ })
    | some ethTx =>
      (none,
        { base := b₁
          nonceToHash := fun a =>
            if a = ethTx.sender then
              match p.nonceToHash a with
              | some m => some (fun n => if n = ethTx.nonce then none else m n)
              | none => none
            else p.nonceToHash a
          ethTxCache := fun h => if h = ethTx.hash then none else p.ethTxCache h })

/-! ### Basic facts about the snapshot stack operations -/

theorem ensure_ne_nil (ms : BankStack) : ensure ms ≠ [] := by
  cases ms <;> simp [ensure]

theorem ensure_eq_self {ms : BankStack} (h : ms ≠ []) : ensure ms = ms := by
  cases ms with
  | nil => exact absurd rfl h
  | cons f fs => rfl

theorem ensure_idem (ms : BankStack) : ensure (ensure ms) = ensure ms :=
  ensure_eq_self (ensure_ne_nil ms)

theorem exists_concat {ms : BankStack} (h : ms ≠ []) : ∃ e t, ms = e ++ [t] := by
  rcases List.eq_nil_or_concat ms with rfl | ⟨e, t, ht⟩
  · exact absurd rfl h
  · exact ⟨e, t, by simpa using ht⟩

theorem topFrame_concat (e : BankStack) (t : Frame) : topFrame (e ++ [t]) = t :=
  List.getLastD_concat _ _ _

theorem setTop_concat (e : BankStack) (t f : Frame) : setTop (e ++ [t]) f = e ++ [f] := by
  simp [setTop, List.dropLast_concat]

theorem changesSum_append (a : Addr) (l₁ l₂ : List BalanceChange) :
    changesSum a (l₁ ++ l₂) = changesSum a l₁ + changesSum a l₂ := by
  induction l₁ with
  | nil => simp [changesSum]
  | cons c cs ih => simp [changesSum, ih]; ring

theorem frameDeltaSum_concat (a : Addr) (fs : List Frame) (f : Frame) :
    frameDeltaSum a (fs ++ [f]) = frameDeltaSum a fs + changesSum a f.balanceChanges := by
  induction fs with
  | nil => simp [frameDeltaSum]
  | cons g gs ih => simp [frameDeltaSum, ih]; ring

/-! ### The overlay invariant and its preservation -/

theorem bankInv_nil (bk : Addr → Int) : BankInv bk [] := by
  intro i f hf
  simp at hf

theorem bankInv_empty_frame (bk : Addr → Int) : BankInv bk [emptyFrame] := by
  intro i f hf a
  have hi : i < 1 := (List.getElem?_eq_some.mp hf).1
  interval_cases i
  have : f = emptyFrame := by simpa using hf.symm
  subst this
  constructor
  · intro b hb; simp [emptyFrame] at hb
  · intro _; simp [frameDeltaSum, changesSum, emptyFrame]

theorem bankInv_ensure {bk : Addr → Int} {ms : BankStack} (h : BankInv bk ms) :
    BankInv bk (ensure ms) := by
  cases ms with
  | nil => exact bankInv_empty_frame bk
  | cons f fs => exact h

theorem bankInv_concat (bk : Addr → Int) (e : BankStack) (t : Frame) :
    BankInv bk (e ++ [t]) ↔
      BankInv bk e ∧ ∀ a : Addr,
        (∀ b, t.dirtyBalances a = some b →
          b = bk a + (frameDeltaSum a e + changesSum a t.balanceChanges)) ∧
        (t.dirtyBalances a = none →
          frameDeltaSum a e + changesSum a t.balanceChanges = 0) := by
  constructor
  · intro h
    constructor
    · intro i f hf a
      have hi : i < e.length := (List.getElem?_eq_some.mp hf).1
      have hf' : (e ++ [t])[i]? = some f := by
        rw [List.getElem?_append_left hi]; exact hf
      have htk : (e ++ [t]).take (i + 1) = e.take (i + 1) :=
        List.take_append_of_le_length (by omega)
      have := h i f hf' a
      rwa [htk] at this
    · intro a
      have hf' : (e ++ [t])[e.length]? = some t := List.getElem?_concat_length e t
      have htk : (e ++ [t]).take (e.length + 1) = e ++ [t] := by
        have : (e ++ [t]).length = e.length + 1 := by simp
        rw [← this, List.take_length]
      have := h e.length t hf' a
      rwa [htk, frameDeltaSum_concat] at this
  · rintro ⟨he, ht⟩ i f hf a
    have hi : i < (e ++ [t]).length := (List.getElem?_eq_some.mp hf).1
    have hlen : (e ++ [t]).length = e.length + 1 := by simp
    rcases Nat.lt_or_ge i e.length with hil | hig
    · have hf' : e[i]? = some f := by
        rw [List.getElem?_append_left hil] at hf; exact hf
      have htk : (e ++ [t]).take (i + 1) = e.take (i + 1) :=
        List.take_append_of_le_length (by omega)
      rw [htk]
      exact he i f hf' a
    · have hieq : i = e.length := by omega
      subst hieq
      have hf' : f = t := by
        have := List.getElem?_concat_length e t
        rw [this] at hf
        exact (Option.some_inj.mp hf).symm
      rw [hf']
      have htk : (e ++ [t]).take (e.length + 1) = e ++ [t] := by
        rw [← hlen, List.take_length]
      rw [htk, frameDeltaSum_concat]
      exact ht a

theorem bankInv_take {bk : Addr → Int} {ms : BankStack} (h : BankInv bk ms) (n : Nat) :
    BankInv bk (ms.take n) := by
  intro i f hf a
  have hi : i < (ms.take n).length := (List.getElem?_eq_some.mp hf).1
  have hin : i < n := by
    have := List.length_take n ms
    omega
  have hf' : ms[i]? = some f := by
    rw [List.getElem?_take] at hf
    simpa [hin] using hf
  have htk : (ms.take n).take (i + 1) = ms.take (i + 1) := by
    rw [List.take_take]
    congr 1
    omega
  rw [htk]
  exact h i f hf' a

theorem frameBalance_some {bk : Addr → Int} {t : Frame} {a : Addr} {b : Int}
    (hdt : t.dirtyBalances a = some b) : frameBalance bk t a = b := by
  unfold frameBalance
  rw [hdt]

theorem frameBalance_none {bk : Addr → Int} {t : Frame} {a : Addr}
    (hdt : t.dirtyBalances a = none) : frameBalance bk t a = bk a := by
  unfold frameBalance
  rw [hdt]

theorem bankInv_push_change {bk : Addr → Int} {e : BankStack} {t : Frame}
    (h : BankInv bk (e ++ [t])) (a : Addr) (v d : Int) (t' : Frame)
    (htc : t'.balanceChanges = t.balanceChanges ++ [⟨a, d⟩])
    (htd : ∀ x, t'.dirtyBalances x = if x = a then some v else t.dirtyBalances x)
    (hd : v = frameBalance bk t a + d) :
    BankInv bk (e ++ [t']) := by
  rcases (bankInv_concat bk e t).mp h with ⟨he, htop⟩
  have hfb : ∀ x, frameBalance bk t x
      = bk x + (frameDeltaSum x e + changesSum x t.balanceChanges) := by
    intro x
    rcases hdt : t.dirtyBalances x with _ | b₀
    · have h0 := (htop x).2 hdt
      rw [frameBalance_none hdt]
      omega
    · rw [frameBalance_some hdt]
      exact (htop x).1 b₀ hdt
  have hsum : ∀ x, changesSum x t'.balanceChanges
      = changesSum x t.balanceChanges + (if x = a then d else 0) := by
    intro x
    rw [htc, changesSum_append]
    by_cases hx : x = a
    · subst hx
      simp [changesSum]
    · have hax : ¬ (a = x) := fun hc => hx hc.symm
      simp [changesSum, hax, hx]
  refine (bankInv_concat bk e _).mpr ⟨he, ?_⟩
  intro x
  constructor
  · intro b hb
    rw [htd x] at hb
    rw [hsum x]
    by_cases hx : x = a
    · rw [if_pos hx] at hb ⊢
      have hbv : v = b := Option.some_inj.mp hb
      rw [← hx] at hd
      have := hfb x
      omega
    · rw [if_neg hx] at hb ⊢
      have := (htop x).1 b hb
      omega
  · intro hn
    rw [htd x] at hn
    rw [hsum x]
    by_cases hx : x = a
    · rw [if_pos hx] at hn
      simp at hn
    · rw [if_neg hx] at hn ⊢
      have := (htop x).2 hn
      omega

theorem bankInv_setBalance {bk : Addr → Int} {ms : BankStack} (h : BankInv bk ms)
    (a : Addr) (v : Int) : BankInv bk (setBalance bk ms a v) := by
  have h₁ : BankInv bk (ensure ms) := bankInv_ensure h
  obtain ⟨e, t, het⟩ := exists_concat (ensure_ne_nil ms)
  by_cases hz : v - getBalanceVal bk ms a = 0
  · have hs : setBalance bk ms a v = ensure ms := by
      unfold setBalance
      simp [hz]
    rw [hs]
    exact h₁
  · have hs : setBalance bk ms a v =
        setTop (ensure ms) ⟨(topFrame (ensure ms)).balanceChanges ++
            [⟨a, v - getBalanceVal bk ms a⟩],
          fun x => if x = a then some v
            else (topFrame (ensure ms)).dirtyBalances x⟩ := by
      unfold setBalance
      simp [hz]
    rw [hs, het, topFrame_concat, setTop_concat]
    rw [het] at h₁
    have hold : getBalanceVal bk ms a = frameBalance bk t a := by
      unfold getBalanceVal
      rw [het, topFrame_concat]
    exact bankInv_push_change h₁ a v _ _ rfl (fun x => rfl) (by rw [← hold]; ring)

theorem bankInv_snapshot {bk : Addr → Int} {ms : BankStack} (h : BankInv bk ms) :
    BankInv bk (snapshotOp ms).1 := by
  have h₁ : BankInv bk (ensure ms) := bankInv_ensure h
  obtain ⟨e, t, het⟩ := exists_concat (ensure_ne_nil ms)
  have hdef : (snapshotOp ms).1 =
      ensure ms ++ [⟨[], (topFrame (ensure ms)).dirtyBalances⟩] := rfl
  rw [hdef, het, topFrame_concat]
  rw [het] at h₁
  rcases (bankInv_concat bk e t).mp h₁ with ⟨_, htop⟩
  refine (bankInv_concat bk (e ++ [t]) _).mpr ⟨h₁, ?_⟩
  intro x
  constructor
  · intro b hb
    have := (htop x).1 b hb
    rw [frameDeltaSum_concat]
    simp only [changesSum]
    omega
  · intro hn
    have := (htop x).2 hn
    rw [frameDeltaSum_concat]
    simp only [changesSum]
    omega

theorem bankInv_execOp {bk : Addr → Int} {ms : BankStack} (h : BankInv bk ms)
    (op : OverlayOp) : BankInv bk (execOp bk ms op) := by
  cases op with
  | getB a => exact bankInv_ensure h
  | setB a v => exact bankInv_setBalance h a v
  | snap => exact bankInv_snapshot h
  | revert id => exact bankInv_take h id

theorem bankInv_execOps {bk : Addr → Int} (ops : List OverlayOp) :
    ∀ {ms : BankStack}, BankInv bk ms → BankInv bk (execOps bk ms ops) := by
  induction ops with
  | nil => intro ms h; exact h
  | cons op ops ih => intro ms h; exact ih (bankInv_execOp h op)

/-! ### Operations after a snapshot only touch frames above the snapshot -/

theorem execOps_extend {bk : Addr → Int} (ops : List OverlayOp)
    (hops : ∀ o ∈ ops, o.isRevert = false) :
    ∀ (e rest : BankStack), rest ≠ [] →
      ∃ rest₁, rest₁ ≠ [] ∧ execOps bk (e ++ rest) ops = e ++ rest₁ := by
  induction ops with
  | nil => intro e rest h; exact ⟨rest, h, rfl⟩
  | cons op ops ih =>
    intro e rest h
    have hop : op.isRevert = false := hops op (List.mem_cons_self op ops)
    have hops₁ : ∀ o ∈ ops, o.isRevert = false :=
      fun o ho => hops o (List.mem_cons_of_mem op ho)
    have hne : (e ++ rest) ≠ [] := by simp [h]
    obtain ⟨r₁, hr₁, heq⟩ : ∃ r, r ≠ [] ∧ execOp bk (e ++ rest) op = e ++ r := by
      cases op with
      | getB a =>
        exact ⟨rest, h, by simp [execOp, getBalanceSt, ensure_eq_self hne]⟩
      | snap =>
        refine ⟨rest ++ [⟨[], (topFrame (e ++ rest)).dirtyBalances⟩], by simp, ?_⟩
        show (snapshotOp (e ++ rest)).1 = _
        unfold snapshotOp
        rw [ensure_eq_self hne]
        simp
      | setB a v =>
        by_cases hz : v - getBalanceVal bk (e ++ rest) a = 0
        · refine ⟨rest, h, ?_⟩
          show setBalance bk (e ++ rest) a v = e ++ rest
          unfold setBalance
          simp [ensure_eq_self hne, hz]
        · obtain ⟨r₂, b, hr⟩ := exists_concat h
          refine ⟨r₂ ++ [⟨b.balanceChanges ++ [⟨a, v - getBalanceVal bk (e ++ rest) a⟩],
            fun x => if x = a then some v else b.dirtyBalances x⟩], by simp, ?_⟩
          show setBalance bk (e ++ rest) a v = _
          unfold setBalance
          simp only [ensure_eq_self hne, if_neg hz]
          subst hr
          rw [show e ++ (r₂ ++ [b]) = (e ++ r₂) ++ [b] from (List.append_assoc e r₂ [b]).symm]
          rw [topFrame_concat, setTop_concat]
          simp
      | revert id => simp [OverlayOp.isRevert] at hop
    have hstep : execOps bk (e ++ rest) (op :: ops) = execOps bk (execOp bk (e ++ rest) op) ops := rfl
    rw [hstep, heq]
    exact ih hops₁ e r₁ hr₁

/-! ### Decomposing Commit into its flat keeper-call trace -/

theorem runOps_nil {σ : Type} (K : LedgerOp → σ → Option String × σ) (s : σ) :
    runOps K [] s = (none, s) := rfl

theorem runOps_cons {σ : Type} (K : LedgerOp → σ → Option String × σ)
    (op : LedgerOp) (ops : List LedgerOp) (s : σ) :
    runOps K (op :: ops) s =
      match K op s with
      | (some e, s₁) => (some e, s₁)
      | (none, s₁) => runOps K ops s₁ := rfl

theorem runOps_append {σ : Type} (K : LedgerOp → σ → Option String × σ)
    (l₁ l₂ : List LedgerOp) (s : σ) :
    runOps K (l₁ ++ l₂) s =
      match runOps K l₁ s with
      | (some e, s₁) => (some e, s₁)
      | (none, s₁) => runOps K l₂ s₁ := by
  induction l₁ generalizing s with
  | nil => rfl
  | cons op ops ih =>
    rw [List.cons_append, runOps_cons, runOps_cons K op ops s]
    rcases hK : K op s with ⟨e, s₁⟩
    cases e with
    | some e₀ => rfl
    | none => exact ih s₁

theorem runChange_eq_runOps {σ : Type} (K : LedgerOp → σ → Option String × σ)
    (c : BalanceChange) (s : σ) :
    runChange K c s = runOps K (opsOfChange c) s := by
  unfold runChange opsOfChange
  by_cases h1 : c.delta > 0
  · simp only [if_pos h1]
    rw [runOps_cons]
    rcases hK : K (.mintCoins c.delta) s with ⟨e, s₁⟩
    cases e with
    | some e₀ => rfl
    | none =>
      show K (.sendModuleToAccount c.addr c.delta) s₁ =
        runOps K [.sendModuleToAccount c.addr c.delta] s₁
      rw [runOps_cons]
      rcases hK₂ : K (.sendModuleToAccount c.addr c.delta) s₁ with ⟨e₂, s₂⟩
      cases e₂ <;> rfl
  · by_cases h2 : c.delta < 0
    · simp only [if_neg h1, if_pos h2]
      rw [runOps_cons]
      rcases hK : K (.sendAccountToModule c.addr (-c.delta)) s with ⟨e, s₁⟩
      cases e with
      | some e₀ => rfl
      | none =>
        show K (.burnCoins (-c.delta)) s₁ = runOps K [.burnCoins (-c.delta)] s₁
        rw [runOps_cons]
        rcases hK₂ : K (.burnCoins (-c.delta)) s₁ with ⟨e₂, s₂⟩
        cases e₂ <;> rfl
    · simp only [if_neg h1, if_neg h2]
      rfl

theorem runChanges_eq_runOps {σ : Type} (K : LedgerOp → σ → Option String × σ)
    (cs : List BalanceChange) (s : σ) :
    runChanges K cs s = runOps K (changesTrace cs) s := by
  induction cs generalizing s with
  | nil => rfl
  | cons c cs ih =>
    rw [show changesTrace (c :: cs) = opsOfChange c ++ changesTrace cs from rfl,
      runOps_append,
      show runChanges K (c :: cs) s =
        (match runChange K c s with
         | (some e, s₁) => (some e, s₁)
         | (none, s₁) => runChanges K cs s₁) from rfl,
      runChange_eq_runOps]
    rcases h : runOps K (opsOfChange c) s with ⟨e, s₁⟩
    cases e with
    | some e₀ => rfl
    | none => exact ih s₁

theorem runFrames_eq_runOps {σ : Type} (K : LedgerOp → σ → Option String × σ)
    (fs : List Frame) (s : σ) :
    runFrames K fs s = runOps K (commitTrace fs) s := by
  induction fs generalizing s with
  | nil => rfl
  | cons f fs ih =>
    rw [show commitTrace (f :: fs) = changesTrace f.balanceChanges ++ commitTrace fs from rfl,
      runOps_append,
      show runFrames K (f :: fs) s =
        (match runChanges K f.balanceChanges s with
         | (some e, s₁) => (some e, s₁)
         | (none, s₁) => runFrames K fs s₁) from rfl,
      runChanges_eq_runOps]
    rcases h : runOps K (changesTrace f.balanceChanges) s with ⟨e, s₁⟩
    cases e with
    | some e₀ => rfl
    | none => exact ih s₁

/-! ### Accounting: net effect of the keeper calls on each account -/

theorem opsNet_append (a : Addr) (l₁ l₂ : List LedgerOp) :
    opsNet a (l₁ ++ l₂) = opsNet a l₁ + opsNet a l₂ := by
  induction l₁ with
  | nil => simp [opsNet]
  | cons op ops ih => cases op <;> simp [opsNet, ih] <;> ring

theorem opsNet_opsOfChange (a : Addr) (c : BalanceChange) :
    opsNet a (opsOfChange c) = if c.addr = a then c.delta else 0 := by
  unfold opsOfChange
  by_cases h1 : c.delta > 0
  · simp only [if_pos h1]
    simp [opsNet]
  · by_cases h2 : c.delta < 0
    · simp only [if_neg h1, if_pos h2]
      simp only [opsNet]
      split <;> simp
    · simp only [if_neg h1, if_neg h2]
      have h0 : c.delta = 0 := le_antisymm (not_lt.mp h1) (not_lt.mp h2)
      simp [opsNet, h0]

theorem opsNet_changesTrace (a : Addr) (cs : List BalanceChange) :
    opsNet a (changesTrace cs) = changesSum a cs := by
  induction cs with
  | nil => rfl
  | cons c cs ih =>
    show opsNet a (opsOfChange c ++ changesTrace cs) = _
    rw [opsNet_append, opsNet_opsOfChange, ih]
    rfl

theorem opsNet_commitTrace (a : Addr) (fs : List Frame) :
    opsNet a (commitTrace fs) = frameDeltaSum a fs := by
  induction fs with
  | nil => rfl
  | cons f fs ih =>
    show opsNet a (changesTrace f.balanceChanges ++ commitTrace fs) = _
    rw [opsNet_append, opsNet_changesTrace, ih]
    rfl

theorem bankApply_success_accounts {op : LedgerOp} {l l₁ : Ledger}
    (h : bankApply op l = (none, l₁)) (a : Addr) :
    l₁.accounts a = l.accounts a + opsNet a [op] := by
  cases op with
  | mintCoins amt =>
    simp only [bankApply, Prod.mk.injEq] at h
    rw [← h.2]
    simp [opsNet]
  | sendModuleToAccount b amt =>
    simp only [bankApply] at h
    split at h
    · simp only [Prod.mk.injEq] at h
      rw [← h.2]
      by_cases hab : a = b
      · subst hab
        simp [updAcc, opsNet]
      · have hba : ¬ (b = a) := fun hc => hab hc.symm
        simp [updAcc, opsNet, hab, hba]
    · simp at h
  | sendAccountToModule b amt =>
    simp only [bankApply] at h
    split at h
    · simp only [Prod.mk.injEq] at h
      rw [← h.2]
      by_cases hab : a = b
      · subst hab
        simp [updAcc, opsNet]
      · have hba : ¬ (b = a) := fun hc => hab hc.symm
        simp [updAcc, opsNet, hab, hba]
    · simp at h
  | burnCoins amt =>
    simp only [bankApply] at h
    split at h
    · simp only [Prod.mk.injEq] at h
      rw [← h.2]
      simp [opsNet]
    · simp at h

theorem runOps_bankApply_accounts (ops : List LedgerOp) :
    ∀ (l : Ledger), (runOps bankApply ops l).1 = none →
      ∀ a, ((runOps bankApply ops l).2).accounts a = l.accounts a + opsNet a ops := by
  induction ops with
  | nil => intro l _ a; simp [runOps, opsNet]
  | cons op ops ih =>
    intro l hsucc a
    rw [runOps_cons] at hsucc ⊢
    cases hK : bankApply op l with
    | mk e l₁ =>
      rw [hK] at hsucc
      cases e with
      | some e₀ => simp at hsucc
      | none =>
        have hstep := bankApply_success_accounts hK a
        have hrec := ih l₁ hsucc a
        have hsplit : opsNet a (op :: ops) = opsNet a [op] + opsNet a ops := by
          rw [show op :: ops = [op] ++ ops from rfl, opsNet_append]
        show (runOps bankApply ops l₁).2.accounts a = _
        omega

theorem bankInv_frameBalance {bk : Addr → Int} {e : BankStack} {t : Frame}
    (h : BankInv bk (e ++ [t])) (a : Addr) :
    frameBalance bk t a = bk a + frameDeltaSum a (e ++ [t]) := by
  rcases (bankInv_concat bk e t).mp h with ⟨_, htop⟩
  rw [frameDeltaSum_concat]
  rcases hdt : t.dirtyBalances a with _ | b₀
  · have h0 := (htop a).2 hdt
    rw [frameBalance_none hdt]
    omega
  · rw [frameBalance_some hdt]
    exact (htop a).1 b₀ hdt

/-! ### Claim theorems for the balance overlay -/

/-- C5: in every reachable overlay state (any sequence of GetBalance /
SetBalance / Snapshot / RevertToSnapshot starting from the fresh manager),
every dirty entry `dirty[a]` of every frame equals the external ledger balance
of `a` plus the sum of the deltas recorded for `a` in all frames below and
including that frame — so the invariant is preserved by every overlay
operation. -/
theorem dirty_balance_layered_invariant (bk : Addr → Int) (ops : List OverlayOp)
    (i : Nat) (f : Frame) (a : Addr) (b : Int)
    (hf : (execOps bk [] ops)[i]? = some f)
    (hb : f.dirtyBalances a = some b) :
    b = bk a + frameDeltaSum a ((execOps bk [] ops).take (i + 1)) :=
  ((bankInv_execOps ops (bankInv_nil bk)) i f hf a).1 b hb

theorem dirty_balance_layered_invariant_witness :
    (execOps (fun _ => (100 : Int)) []
        [OverlayOp.setB 1 130, OverlayOp.snap, OverlayOp.setB 1 120])[1]?
      = some ⟨[⟨1, -10⟩],
          fun x => if x = 1 then some 120 else if x = 1 then some 130 else none⟩ ∧
    (120 : Int) = 100 + frameDeltaSum 1
      ((execOps (fun _ => (100 : Int)) []
        [OverlayOp.setB 1 130, OverlayOp.snap, OverlayOp.setB 1 120]).take 2) :=
  ⟨rfl, dirty_balance_layered_invariant (fun _ => 100)
    [OverlayOp.setB 1 130, OverlayOp.snap, OverlayOp.setB 1 120] 1 _ 1 120 rfl rfl⟩

/-- C2: if `id` is the value returned by a `Snapshot()` call, then after any
further sequence of SetBalance / Snapshot / GetBalance calls (no intervening
revert) followed by `RevertToSnapshot id`, `GetBalance a` returns, for every
account `a`, exactly the value it returned immediately before that
`Snapshot()` call — including for accounts mutated after the snapshot. -/
theorem snapshot_revert_restores_balances (bk : Addr → Int) (ms : BankStack)
    (ops : List OverlayOp) (hops : ops.all (fun o => !o.isRevert) = true) (a : Addr) :
    getBalanceVal bk
        (revertToSnapshot (execOps bk (snapshotOp ms).1 ops) (snapshotOp ms).2) a
      = getBalanceVal bk ms a := by
  have hops₁ : ∀ o ∈ ops, o.isRevert = false := by
    intro o ho
    have := List.all_eq_true.mp hops o ho
    simpa using this
  have h1 : (snapshotOp ms).1
      = ensure ms ++ [⟨[], (topFrame (ensure ms)).dirtyBalances⟩] := rfl
  have h2 : (snapshotOp ms).2 = (ensure ms).length := by
    show (ensure ms ++ [(⟨[], (topFrame (ensure ms)).dirtyBalances⟩ : Frame)]).length - 1
        = (ensure ms).length
    simp
  obtain ⟨r₁, hr₁, heq⟩ := execOps_extend ops hops₁ (ensure ms)
    [⟨[], (topFrame (ensure ms)).dirtyBalances⟩] (by simp)
  rw [h1, heq, h2]
  show getBalanceVal bk ((ensure ms ++ r₁).take (ensure ms).length) a = _
  rw [List.take_left]
  unfold getBalanceVal
  rw [ensure_idem]

theorem snapshot_revert_restores_balances_witness :
    ([OverlayOp.setB 1 7, OverlayOp.snap, OverlayOp.setB 1 9].all
        (fun o => !o.isRevert) = true) ∧
    getBalanceVal (fun _ => (100 : Int))
        (revertToSnapshot
          (execOps (fun _ => (100 : Int))
            (snapshotOp ([⟨[], fun x => if x = 1 then some 42 else none⟩] : BankStack)).1
            [OverlayOp.setB 1 7, OverlayOp.snap, OverlayOp.setB 1 9])
          (snapshotOp ([⟨[], fun x => if x = 1 then some 42 else none⟩] : BankStack)).2) 1
      = getBalanceVal (fun _ => (100 : Int))
          ([⟨[], fun x => if x = 1 then some 42 else none⟩] : BankStack) 1 :=
  ⟨by decide, snapshot_revert_restores_balances (fun _ => 100) _ _ (by decide) 1⟩

/-- C1: `Commit` replays, against the keeper, exactly the keeper-call
compilation of the recorded deltas (frames bottom-to-top, within a frame in
append order; positive delta: mint then transfer to the account, negative
delta: transfer from the account then burn of the absolute amount, zero
deltas: nothing) — `commitTrace` is by definition that call sequence; and,
for the concrete ledger keeper, a successful Commit moves every account's
ledger balance by exactly its final dirty balance minus its pre-execution
ledger balance, on every reachable overlay state. -/
theorem commit_replays_deltas_and_net_balance (led : Ledger) (ops₀ : List OverlayOp) :
    (∀ (σ : Type) (K : LedgerOp → σ → Option String × σ) (s : σ),
      (Commit K (execOps led.accounts [] ops₀) s).1
        = runOps K (commitTrace (ensure (execOps led.accounts [] ops₀))) s) ∧
    ((Commit bankApply (execOps led.accounts [] ops₀) led).1.1 = none →
      ∀ a : Addr,
        ((Commit bankApply (execOps led.accounts [] ops₀) led).1.2).accounts a
            - led.accounts a
          = getBalanceVal led.accounts (execOps led.accounts [] ops₀) a
            - led.accounts a) := by
  constructor
  · intro σ K s
    exact runFrames_eq_runOps K _ s
  · intro hsucc a
    set ms := execOps led.accounts [] ops₀ with hms
    have hinv : BankInv led.accounts ms := bankInv_execOps ops₀ (bankInv_nil _)
    have hinv₁ : BankInv led.accounts (ensure ms) := bankInv_ensure hinv
    obtain ⟨e, t, het⟩ := exists_concat (ensure_ne_nil ms)
    have hC : (Commit bankApply ms led).1
        = runOps bankApply (commitTrace (ensure ms)) led :=
      runFrames_eq_runOps bankApply _ led
    rw [hC] at hsucc ⊢
    have hacc := runOps_bankApply_accounts (commitTrace (ensure ms)) led hsucc a
    rw [opsNet_commitTrace] at hacc
    have hgbv : getBalanceVal led.accounts ms a = frameBalance led.accounts t a := by
      unfold getBalanceVal
      rw [het, topFrame_concat]
    rw [het] at hinv₁
    have hfb := bankInv_frameBalance hinv₁ a
    rw [← het] at hfb
    rw [hgbv]
    omega

theorem commit_replays_deltas_and_net_balance_witness :
    ((Commit bankApply (execOps (fun _ => (100 : Int)) [] [OverlayOp.setB 2 105])
        ⟨fun _ => 100, 0⟩).1.1 = none) ∧
    ((Commit bankApply (execOps (fun _ => (100 : Int)) [] [OverlayOp.setB 2 105])
        ⟨fun _ => 100, 0⟩).1.2).accounts 2 - 100
      = getBalanceVal (fun _ => (100 : Int))
          (execOps (fun _ => (100 : Int)) [] [OverlayOp.setB 2 105]) 2 - 100 :=
  ⟨rfl,
    (commit_replays_deltas_and_net_balance ⟨fun _ => 100, 0⟩ [OverlayOp.setB 2 105]).2 rfl 2⟩

/-- C4: if one of the keeper calls made during `Commit` fails — the calls
before it having succeeded — then Commit returns exactly that error with the
keeper context as that failing call left it: the calls for all remaining
deltas (`rest`) are never made, and the effects of the calls already applied
(`done`) are not rolled back. -/
theorem commit_error_short_circuits {σ : Type} (K : LedgerOp → σ → Option String × σ)
    (ms : BankStack) (s s₁ s₂ : σ) (done rest : List LedgerOp) (op : LedgerOp) (e : String)
    (hsplit : commitTrace (ensure ms) = done ++ op :: rest)
    (hdone : runOps K done s = (none, s₁))
    (hfail : K op s₁ = (some e, s₂)) :
    (Commit K ms s).1 = (some e, s₂) := by
  show runFrames K (ensure ms) s = _
  rw [runFrames_eq_runOps, hsplit, runOps_append, hdone]
  show runOps K (op :: rest) s₁ = _
  rw [runOps_cons, hfail]

theorem commit_error_short_circuits_witness :
    commitTrace (ensure ([⟨[⟨2, -5⟩], fun x => if x = 2 then some (-2) else none⟩] : BankStack))
      = [] ++ LedgerOp.sendAccountToModule 2 5 :: [LedgerOp.burnCoins 5] ∧
    (Commit bankApply
        ([⟨[⟨2, -5⟩], fun x => if x = 2 then some (-2) else none⟩] : BankStack)
        (⟨fun _ => 3, 0⟩ : Ledger)).1
      = (some "insufficient funds", (⟨fun _ => 3, 0⟩ : Ledger)) :=
  ⟨rfl,
    commit_error_short_circuits bankApply
      [⟨[⟨2, -5⟩], fun x => if x = 2 then some (-2) else none⟩]
      ⟨fun _ => 3, 0⟩ ⟨fun _ => 3, 0⟩ ⟨fun _ => 3, 0⟩
      [] [LedgerOp.burnCoins 5] (.sendAccountToModule 2 5) "insufficient funds"
      rfl rfl rfl⟩

/-- C8 counterexample: on a stack of two frames — height 2 > 1 — the claim
says `RevertToSnapshot 1` keeps the frames at indices 0 through 1 inclusive,
i.e. leaves a stack of height 2; the code truncates to height 1. -/
theorem revert_discards_frame_at_index_cex :
    ¬ ((revertToSnapshot [emptyFrame, emptyFrame] 1).length = 2) := by decide

/-- C8 (amended): for every stack of height strictly greater than `N`,
`RevertToSnapshot N` truncates the stack to height exactly `N`: the frames at
indices `0..N-1` are kept unchanged, and every frame at index `≥ N` —
including the frame at index `N` itself — is discarded. -/
theorem revert_truncates_to_height (ms : BankStack) (N : Nat) (h : N < ms.length) :
    (revertToSnapshot ms N).length = N ∧
    (∀ i, i < N → (revertToSnapshot ms N)[i]? = ms[i]?) ∧
    (∀ i, N ≤ i → (revertToSnapshot ms N)[i]? = none) := by
  refine ⟨?_, ?_, ?_⟩
  · show (ms.take N).length = N
    rw [List.length_take]
    omega
  · intro i hi
    show (ms.take N)[i]? = ms[i]?
    rw [List.getElem?_take, if_pos hi]
  · intro i hi
    show (ms.take N)[i]? = none
    apply List.getElem?_len_le
    rw [List.length_take]
    omega

theorem revert_truncates_to_height_witness :
    1 < ([emptyFrame, emptyFrame] : BankStack).length ∧
    (revertToSnapshot [emptyFrame, emptyFrame] 1).length = 1 ∧
    (revertToSnapshot [emptyFrame, emptyFrame] 1)[1]? = none :=
  ⟨by decide,
    (revert_truncates_to_height [emptyFrame, emptyFrame] 1 (by decide)).1,
    (revert_truncates_to_height [emptyFrame, emptyFrame] 1 (by decide)).2.2 1 le_rfl⟩

/-- C10 counterexample: on an empty snapshot stack a successful `Commit`
does modify the stack — the `getCurState` call inside Commit lazily pushes
one empty frame (height goes from 0 to 1). -/
theorem commit_modifies_empty_stack_cex :
    (Commit bankApply ([] : BankStack) (⟨fun _ => 0, 0⟩ : Ledger)).1.1 = none ∧
    ¬ ((Commit bankApply ([] : BankStack) (⟨fun _ => 0, 0⟩ : Ledger)).2.length = 0) :=
  ⟨rfl, by decide⟩

/-- C10 (amended): `Finalize` is a no-op; `Commit` never modifies the stack
when it is non-empty (on an empty stack it only lazily creates the single
empty frame, touching no frame content), and calling Commit a second time on
the overlay state a Commit leaves behind replays exactly the same keeper-call
trace — every recorded delta — a second time. -/
theorem commit_preserves_stack_and_replays {σ : Type}
    (K : LedgerOp → σ → Option String × σ) (ms : BankStack) (s s₁ : σ) :
    Finalize ms = ms ∧
    (ms ≠ [] → (Commit K ms s).2 = ms) ∧
    (Commit K ((Commit K ms s).2) s₁).1 = runOps K (commitTrace (ensure ms)) s₁ := by
  refine ⟨rfl, fun h => ?_, ?_⟩
  · show ensure ms = ms
    exact ensure_eq_self h
  · show runFrames K (ensure (ensure ms)) s₁ = _
    rw [ensure_idem, runFrames_eq_runOps]

theorem commit_preserves_stack_and_replays_witness :
    ([emptyFrame] : BankStack) ≠ [] ∧
    (Commit bankApply ([emptyFrame] : BankStack) (⟨fun _ => 0, 0⟩ : Ledger)).2 = [emptyFrame] ∧
    (Commit bankApply
        ((Commit bankApply ([emptyFrame] : BankStack) (⟨fun _ => 0, 0⟩ : Ledger)).2)
        (⟨fun _ => 0, 0⟩ : Ledger)).1
      = runOps bankApply (commitTrace (ensure ([emptyFrame] : BankStack))) ⟨fun _ => 0, 0⟩ :=
  ⟨List.cons_ne_nil _ _,
    (commit_preserves_stack_and_replays bankApply [emptyFrame]
      (⟨fun _ => 0, 0⟩ : Ledger) (⟨fun _ => 0, 0⟩ : Ledger)).2.1 (List.cons_ne_nil _ _),
    (commit_preserves_stack_and_replays bankApply [emptyFrame]
      (⟨fun _ => 0, 0⟩ : Ledger) (⟨fun _ => 0, 0⟩ : Ledger)).2.2⟩

/-! ### Claim theorems for the admission pool -/

theorem baseInsert_ok {env : PoolEnv} {b : List SdkTx} {tx : SdkTx}
    (h : env.baseAccepts b tx = true) : baseInsert env b tx = (none, b ++ [tx]) := by
  unfold baseInsert
  rw [h]
  rfl

theorem baseInsert_fail {env : PoolEnv} {b : List SdkTx} {tx : SdkTx}
    (h : env.baseAccepts b tx = false) :
    baseInsert env b tx = (some "rejected by underlying pool", b) := by
  unfold baseInsert
  rw [h]
  rfl

theorem baseRemove_mem {b : List SdkTx} {tx : SdkTx} (h : tx ∈ b) :
    baseRemove b tx = (none, b.erase tx) := by
  unfold baseRemove
  rw [if_pos h]

theorem baseRemove_not_mem {b : List SdkTx} {tx : SdkTx} (h : tx ∉ b) :
    baseRemove b tx = (some "tx not found in mempool", b) := by
  unfold baseRemove
  rw [if_neg h]

/-- C3: inserting an execution-engine transaction whose nonce is strictly
below the authoritative nonce `GetNonce(sender)` always returns a non-nil
error, never adds anything to the Tx Cache or the Nonce Index (both are
pointwise unchanged on every path), and leaves the transaction with the same
multiplicity in the underlying pool as before the call — on the stale path it
is inserted and then immediately removed again. -/
theorem insert_nonce_too_low_rejected (env : PoolEnv) (p : EthTxPool) (tx : SdkTx)
    (ethTx : EthTx) (h1 : tx.asEthTx = some ethTx)
    (h2 : ethTx.nonce < env.nrGetNonce ethTx.sender) :
    ((p.insert env tx).1).isSome = true ∧
    (∀ h, (p.insert env tx).2.ethTxCache h = p.ethTxCache h) ∧
    (∀ a, (p.insert env tx).2.nonceToHash a = p.nonceToHash a) ∧
    (p.insert env tx).2.base.count tx = p.base.count tx := by
  cases hchk : checkTxSigner tx with
  | some e =>
    simp only [EthTxPool.insert, hchk]
    refine ⟨by simp, by simp, by simp, by simp⟩
  | none =>
    cases hacc : env.baseAccepts p.base tx with
    | false =>
      simp only [EthTxPool.insert, hchk, baseInsert_fail hacc]
      refine ⟨by simp, by simp, by simp, by simp⟩
    | true =>
      have hmem : tx ∈ p.base ++ [tx] := by simp
      simp only [EthTxPool.insert, hchk, baseInsert_ok hacc, h1, if_pos h2,
        baseRemove_mem hmem]
      refine ⟨by simp, by simp, by simp, ?_⟩
      rw [List.count_erase_self]
      have hcnt : (p.base ++ [tx]).count tx = p.base.count tx + 1 := by simp
      omega

theorem insert_nonce_too_low_rejected_witness :
    ((⟨true, some [1], some ⟨1, 3, 42⟩⟩ : SdkTx).asEthTx = some ⟨1, 3, 42⟩) ∧
    (3 < 5) ∧
    ((EthTxPool.insert ⟨fun _ => 5, fun _ _ => true⟩
        ⟨[], fun _ => none, fun _ => none⟩
        ⟨true, some [1], some ⟨1, 3, 42⟩⟩).1).isSome = true ∧
    (EthTxPool.insert ⟨fun _ => 5, fun _ _ => true⟩
        ⟨[], fun _ => none, fun _ => none⟩
        ⟨true, some [1], some ⟨1, 3, 42⟩⟩).2.ethTxCache 42 = none ∧
    (EthTxPool.insert ⟨fun _ => 5, fun _ _ => true⟩
        ⟨[], fun _ => none, fun _ => none⟩
        ⟨true, some [1], some ⟨1, 3, 42⟩⟩).2.base.count ⟨true, some [1], some ⟨1, 3, 42⟩⟩
      = 0 := by
  have h := insert_nonce_too_low_rejected ⟨fun _ => 5, fun _ _ => true⟩
    ⟨[], fun _ => none, fun _ => none⟩ ⟨true, some [1], some ⟨1, 3, 42⟩⟩
    ⟨1, 3, 42⟩ rfl (by decide)
  exact ⟨rfl, by decide, h.1, (h.2.1 42).trans rfl, (h.2.2.2).trans rfl⟩

/-- C6: when the Nonce Index already maps (sender, nonce) to `oldHash` and
Insert admits a new execution-engine transaction with the same sender and
nonce (and a distinct hash — distinct transactions have distinct hashes),
afterwards the old hash is no longer resolvable via the Tx Cache, the Nonce
Index maps (sender, nonce) to the new transaction's hash, and the Tx Cache
maps the new hash to the new transaction. -/
theorem insert_replaces_nonce_index_entry (env : PoolEnv) (p : EthTxPool) (tx : SdkTx)
    (ethTx : EthTx) (m : Nat → Option Hash) (oldHash : Hash)
    (h1 : tx.asEthTx = some ethTx)
    (hchk : checkTxSigner tx = none)
    (hacc : env.baseAccepts p.base tx = true)
    (hnlow : ¬ ethTx.nonce < env.nrGetNonce ethTx.sender)
    (hm : p.nonceToHash ethTx.sender = some m)
    (hold : m ethTx.nonce = some oldHash)
    (hne : oldHash ≠ ethTx.hash) :
    (p.insert env tx).1 = none ∧
    (p.insert env tx).2.ethTxCache oldHash = none ∧
    (p.insert env tx).2.ethTxCache ethTx.hash = some ethTx ∧
    (((p.insert env tx).2.nonceToHash ethTx.sender).getD (fun _ => none)) ethTx.nonce
      = some ethTx.hash := by
  simp only [EthTxPool.insert, hchk, baseInsert_ok hacc, h1, if_neg hnlow, hm]
  refine ⟨by simp, ?_, by simp, by simp⟩
  simp [hold, hne]

theorem insert_replaces_nonce_index_entry_witness :
    ((7 : Hash) ≠ 42) ∧
    (EthTxPool.insert ⟨fun _ => 0, fun _ _ => true⟩
        ⟨[], fun a => if a = 1 then some (fun n => if n = 3 then some 7 else none) else none,
          fun h => if h = 7 then some ⟨1, 3, 7⟩ else none⟩
        ⟨true, some [9], some ⟨1, 3, 42⟩⟩).1 = none ∧
    (EthTxPool.insert ⟨fun _ => 0, fun _ _ => true⟩
        ⟨[], fun a => if a = 1 then some (fun n => if n = 3 then some 7 else none) else none,
          fun h => if h = 7 then some ⟨1, 3, 7⟩ else none⟩
        ⟨true, some [9], some ⟨1, 3, 42⟩⟩).2.ethTxCache 7 = none ∧
    (EthTxPool.insert ⟨fun _ => 0, fun _ _ => true⟩
        ⟨[], fun a => if a = 1 then some (fun n => if n = 3 then some 7 else none) else none,
          fun h => if h = 7 then some ⟨1, 3, 7⟩ else none⟩
        ⟨true, some [9], some ⟨1, 3, 42⟩⟩).2.ethTxCache 42 = some ⟨1, 3, 42⟩ ∧
    (((EthTxPool.insert ⟨fun _ => 0, fun _ _ => true⟩
        ⟨[], fun a => if a = 1 then some (fun n => if n = 3 then some 7 else none) else none,
          fun h => if h = 7 then some ⟨1, 3, 7⟩ else none⟩
        ⟨true, some [9], some ⟨1, 3, 42⟩⟩).2.nonceToHash 1).getD (fun _ => none)) 3
      = some 42 := by
  have h := insert_replaces_nonce_index_entry ⟨fun _ => 0, fun _ _ => true⟩
    ⟨[], fun a => if a = 1 then some (fun n => if n = 3 then some 7 else none) else none,
      fun h => if h = 7 then some ⟨1, 3, 7⟩ else none⟩
    ⟨true, some [9], some ⟨1, 3, 42⟩⟩ ⟨1, 3, 42⟩
    (fun n => if n = 3 then some 7 else none) 7
    rfl rfl rfl (by decide) rfl rfl (by decide)
  exact ⟨by decide, h.1, h.2.1, h.2.2.1, h.2.2.2⟩

/-- C7: a transaction one of whose signers resolves to the reserved system
account `0xfF06ad5d076fa274B49C297f3fE9e29B5bA9AaDC` is rejected by Insert
before the underlying pool is called, whatever its nonce or fee: the returned
error is non-nil and the whole pool state — underlying pool, Nonce Index and
Tx Cache — is unchanged. -/
theorem insert_reserved_signer_rejected (env : PoolEnv) (p : EthTxPool) (tx : SdkTx)
    (ss : List Addr) (h1 : tx.sigVerifiable = true) (h2 : tx.signers = some ss)
    (h3 : ReservedAddress ∈ ss) :
    ((p.insert env tx).1).isSome = true ∧ (p.insert env tx).2 = p := by
  have hany : ss.any (fun s => s == ReservedAddress) = true := by
    rw [List.any_eq_true]
    exact ⟨ReservedAddress, h3, by simp⟩
  have hchk : checkTxSigner tx
      = some "reserved account not allowed to send tx via mempool" := by
    unfold checkTxSigner
    rw [h1, h2]
    simp [hany]
  simp only [EthTxPool.insert, hchk]
  exact ⟨by simp, by simp⟩

theorem insert_reserved_signer_rejected_witness :
    (ReservedAddress ∈ [ReservedAddress]) ∧
    ((EthTxPool.insert ⟨fun _ => 0, fun _ _ => true⟩
        ⟨[], fun _ => none, fun _ => none⟩
        ⟨true, some [ReservedAddress], none⟩).1).isSome = true ∧
    (EthTxPool.insert ⟨fun _ => 0, fun _ _ => true⟩
        ⟨[], fun _ => none, fun _ => none⟩
        ⟨true, some [ReservedAddress], none⟩).2
      = ⟨[], fun _ => none, fun _ => none⟩ := by
  have h := insert_reserved_signer_rejected ⟨fun _ => 0, fun _ _ => true⟩
    ⟨[], fun _ => none, fun _ => none⟩ ⟨true, some [ReservedAddress], none⟩
    [ReservedAddress] rfl rfl (by simp)
  exact ⟨by simp, h.1, h.2⟩

/-- C9: for an execution-engine transaction, when the underlying pool's
Remove succeeds, `Remove` deletes the Tx Cache entry for the transaction's own
hash and the Nonce Index entry for (sender, nonce) unconditionally — whatever
hash that entry currently holds — leaving all other cache and index entries
unchanged; when the underlying pool's Remove fails, Remove returns that same
error and leaves the underlying pool, Tx Cache and Nonce Index unchanged. -/
theorem remove_deletes_cache_and_nonce_index (p : EthTxPool) (tx : SdkTx) (ethTx : EthTx)
    (h1 : tx.asEthTx = some ethTx) :
    (tx ∈ p.base →
      (p.remove tx).1 = none ∧
      (p.remove tx).2.base = p.base.erase tx ∧
      (p.remove tx).2.ethTxCache ethTx.hash = none ∧
      (∀ h, h ≠ ethTx.hash → (p.remove tx).2.ethTxCache h = p.ethTxCache h) ∧
      (((p.remove tx).2.nonceToHash ethTx.sender).getD (fun _ => none)) ethTx.nonce
        = none ∧
      (∀ n, n ≠ ethTx.nonce →
        (((p.remove tx).2.nonceToHash ethTx.sender).getD (fun _ => none)) n
          = ((p.nonceToHash ethTx.sender).getD (fun _ => none)) n)) ∧
    (tx ∉ p.base →
      (p.remove tx).1 = (baseRemove p.base tx).1 ∧
      ((p.remove tx).1).isSome = true ∧
      (p.remove tx).2.ethTxCache = p.ethTxCache ∧
      (p.remove tx).2.nonceToHash = p.nonceToHash ∧
      (p.remove tx).2.base = p.base) := by
  constructor
  · intro hmem
    simp only [EthTxPool.remove, baseRemove_mem hmem, h1]
    refine ⟨by simp, by simp, by simp, ?_, ?_, ?_⟩
    · intro h hh
      simp [hh]
    · cases hm : p.nonceToHash ethTx.sender with
      | none => simp [hm]
      | some m => simp [hm]
    · intro n hn
      cases hm : p.nonceToHash ethTx.sender with
      | none => simp [hm]
      | some m => simp [hm, hn]
  · intro hnm
    simp only [EthTxPool.remove, baseRemove_not_mem hnm]
    refine ⟨by simp, by simp, by simp, by simp, by simp⟩

theorem remove_deletes_cache_and_nonce_index_witness :
    ((⟨true, some [9], some ⟨1, 3, 42⟩⟩ : SdkTx)
        ∈ [(⟨true, some [9], some ⟨1, 3, 42⟩⟩ : SdkTx)]) ∧
    (EthTxPool.remove
        ⟨[⟨true, some [9], some ⟨1, 3, 42⟩⟩],
          fun a => if a = 1 then some (fun n => if n = 3 then some 99 else none) else none,
          fun h => if h = 42 then some ⟨1, 3, 42⟩ else none⟩
        ⟨true, some [9], some ⟨1, 3, 42⟩⟩).1 = none ∧
    (EthTxPool.remove
        ⟨[⟨true, some [9], some ⟨1, 3, 42⟩⟩],
          fun a => if a = 1 then some (fun n => if n = 3 then some 99 else none) else none,
          fun h => if h = 42 then some ⟨1, 3, 42⟩ else none⟩
        ⟨true, some [9], some ⟨1, 3, 42⟩⟩).2.ethTxCache 42 = none ∧
    (((EthTxPool.remove
        ⟨[⟨true, some [9], some ⟨1, 3, 42⟩⟩],
          fun a => if a = 1 then some (fun n => if n = 3 then some 99 else none) else none,
          fun h => if h = 42 then some ⟨1, 3, 42⟩ else none⟩
        ⟨true, some [9], some ⟨1, 3, 42⟩⟩).2.nonceToHash 1).getD (fun _ => none)) 3
      = none := by
  have h := remove_deletes_cache_and_nonce_index
    ⟨[⟨true, some [9], some ⟨1, 3, 42⟩⟩],
      fun a => if a = 1 then some (fun n => if n = 3 then some 99 else none) else none,
      fun h => if h = 42 then some ⟨1, 3, 42⟩ else none⟩
    ⟨true, some [9], some ⟨1, 3, 42⟩⟩ ⟨1, 3, 42⟩ rfl
  have hmem : (⟨true, some [9], some ⟨1, 3, 42⟩⟩ : SdkTx)
      ∈ [(⟨true, some [9], some ⟨1, 3, 42⟩⟩ : SdkTx)] := by simp
  exact ⟨hmem, (h.1 hmem).1, (h.1 hmem).2.2.1, (h.1 hmem).2.2.2.2.1⟩
